import Mathlib

/-!
Verification of the beads-viewer analysis engine against its specification.

The definitions below are a shallow embedding of the Go sources:
  - pkg/analysis/advanced_insights.go (cycle-break suggestion generation),
  - pkg/analysis/whatif.go (top reasons, enhanced recommendations, what-if deltas),
  - pkg/instance/lock.go (single-instance lock takeover),
and, where a function is absent from the sources (only callers and tests are
present), a definition modelled from the specification, marked as such in its
doc comment.

Numeric float64 fields are modelled as rationals: the embedded functions only
compare these values (no float arithmetic occurs in them), and comparison of
finite IEEE values agrees with the rational order.  Go string comparison is
byte-lexicographic; Lean String order is lexicographic on characters, which
agrees on ASCII identifiers.
-/

/-! ## Issue data model (pkg/model, as used by the analysis package) -/

/-- Issue status enum: open, in_progress, blocked, closed. -/
inductive Status where
  | open
  | inProgress
  | blocked
  | closed
deriving DecidableEq, Repr

/-- Dependency kinds; only `blocks` participates in blocking analysis. -/
inductive DepKind where
  | blocks
  | related
  | parentOf
  | discoveredFrom
deriving DecidableEq, Repr

/-- A dependency edge recorded on an issue. -/
structure Dependency where
  dependsOnID : String
  kind : DepKind
deriving DecidableEq, Repr

/-- An issue record, with the fields the analysis engine reads. -/
structure Issue where
  id : String
  title : String := ""
  status : Status
  priority : Int := 2
  updatedAt : Int := 0
  dependencies : List Dependency := []
deriving DecidableEq, Repr

/-- Blocking dependency targets of one issue. -/
def Issue.blockDeps (iss : Issue) : List String :=
  (iss.dependencies.filter (fun d => d.kind = DepKind.blocks)).map (·.dependsOnID)

/-- All blocking edges of an issue set, as (source, target) pairs.  The edge
A → B means A is blocked by B. -/
def blockingEdges (issues : List Issue) : List (String × String) :=
  issues.flatMap (fun iss => iss.blockDeps.map (fun t => (iss.id, t)))

/-! ## Cycle-break suggestions (pkg/analysis/advanced_insights.go) -/

/-- One cycle break suggestion (struct CycleBreakItem). -/
structure CycleBreakItem where
  edgeFrom : String
  edgeTo : String
  impact : Nat
  collateral : Nat
  inCycles : List Nat
  rationale : String
deriving DecidableEq, Repr

/-- Computation status of a feature (struct FeatureStatus). -/
structure FeatureStatus where
  state : String
  reason : String := ""
  capped : Bool := false
  count : Nat := 0
  limited : Nat := 0
deriving DecidableEq, Repr

/-- Result shape for cycle-break suggestions (struct CycleBreakResult). -/
structure CycleBreakResult where
  status : FeatureStatus
  suggestions : List CycleBreakItem
  cycleCount : Nat
  howToUse : String
  advisory : String
deriving DecidableEq, Repr

/-- A cycle entry participates in edge counting iff it has at least 2 nodes
and its first node is not a sentinel marker (the two `continue` guards in
generateCycleBreakSuggestions). -/
def validCycle : List String → Bool
  | x :: _ :: _ => x ≠ "CYCLE_DETECTION_TIMEOUT" && x ≠ "..."
  | _ => false

/-- The directed edges of a cycle entry: the consecutive pairs
(cycle[j], cycle[j+1]) plus the closing pair (cycle[len-1], cycle[0]). -/
def cycleEdges : List String → List (String × String)
  | [] => []
  | x :: rest => (x :: rest).zip (rest ++ [x])

/-- Record cycle index `i` under edge key `e` in the edge-frequency
association list (edgeFreq[key] = append(edgeFreq[key], i)). -/
def addIdx (e : String × String) (i : Nat) :
    List ((String × String) × List Nat) → List ((String × String) × List Nat)
  | [] => [(e, [i])]
  | (k, ixs) :: rest =>
      if k = e then (k, ixs ++ [i]) :: rest else (k, ixs) :: addIdx e i rest

/-- Record cycle index `i` under every edge of the list `es`. -/
def addAll (es : List (String × String)) (i : Nat)
    (freq : List ((String × String) × List Nat)) :
    List ((String × String) × List Nat) :=
  es.foldl (fun f e => addIdx e i f) freq

/-- Process the cycles one by one, numbering them from `k`, accumulating the
edge-frequency table (the `for i, cycle := range cycles` loop). -/
def buildAux : Nat → List (List String) → List ((String × String) × List Nat) →
    List ((String × String) × List Nat)
  | _, [], f => f
  | k, c :: cs, f =>
      buildAux (k + 1) cs (if validCycle c then addAll (cycleEdges c) k f else f)

/-- The edge-frequency table of a cycle list: edge key ↦ cycle indices. -/
def buildEdgeFreq (cycles : List (List String)) :
    List ((String × String) × List Nat) :=
  buildAux 0 cycles []

/-- Ranking key of an edge-frequency entry: appearance count descending, then
source ascending, then target ascending (the sort.Slice comparator).  String
identifiers are compared through their character lists, which is the
lexicographic string order. -/
def edgeEntryKey (x : (String × String) × List Nat) :
    Lex (Int × Lex (List Char × List Char)) :=
  toLex (-(x.2.length : Int), toLex (x.1.1.data, x.1.2.data))

/-- Non-strict ranking order on edge-frequency entries. -/
def edgeEntryLE (a b : (String × String) × List Nat) : Prop :=
  edgeEntryKey a ≤ edgeEntryKey b

instance : DecidableRel edgeEntryLE := fun a b =>
  inferInstanceAs (Decidable (edgeEntryKey a ≤ edgeEntryKey b))

instance : IsTotal ((String × String) × List Nat) edgeEntryLE :=
  ⟨fun a b => le_total (edgeEntryKey a) (edgeEntryKey b)⟩

instance : IsTrans ((String × String) × List Nat) edgeEntryLE :=
  ⟨fun _ _ _ hab hbc => le_trans hab hbc⟩

/-- The ranked edge list: frequency entries sorted by the ranking order. -/
def rankedEdges (cycles : List (List String)) :
    List ((String × String) × List Nat) :=
  List.insertionSort edgeEntryLE (buildEdgeFreq cycles)

/-- Build one suggestion from a ranked entry; `countDep` abstracts the
Analyzer method countDependents (number of incoming graph neighbours). -/
def mkSuggestion (countDep : String → Nat)
    (r : (String × String) × List Nat) : CycleBreakItem :=
  { edgeFrom := r.1.1
    edgeTo := r.1.2
    impact := r.2.length
    collateral := countDep r.1.2
    inCycles := r.2
    rationale := "Appears in most cycles; removing minimizes structural damage." }

/-- generateCycleBreakSuggestions: embedding of the Go function, with the
cycle list (stats.Cycles()) and the dependent count as parameters. -/
def generateCycleBreakSuggestions (countDep : String → Nat)
    (cycles : List (List String)) (limit : Nat) : CycleBreakResult :=
  if cycles = [] then
    { status := { state := "available", count := 0 }
      suggestions := []
      cycleCount := 0
      howToUse := "Structural fix suggestions. Apply BEFORE working on cycle members."
      advisory := "No cycles detected - dependency graph is a proper DAG." }
  else
    let ranked := rankedEdges cycles
    let suggestions := (ranked.take limit).map (mkSuggestion countDep)
    { status :=
        { state := "available"
          count := suggestions.length
          capped := decide (limit < ranked.length)
          limited := ranked.length }
      suggestions := suggestions
      cycleCount := cycles.length
      howToUse := "Structural fix suggestions. Apply BEFORE working on cycle members."
      advisory := "Structural fix - apply cycle breaks BEFORE executing dependents." }

/-- countDependents over an explicit edge list: the number of graph edges
pointing at `issueID` (a.g.To(nodeID) iteration), given the issue is in the
index.  Parallel edges are collapsed in the graph, so the edge list is
expected to be duplicate-free. -/
def countDependents (edges : List (String × String)) (ids : List String)
    (issueID : String) : Nat :=
  if issueID ∈ ids then (edges.filter (fun e => e.2 = issueID)).length else 0

/-! ## What-if deltas (pkg/analysis/whatif.go and spec section 4.5) -/

/-- What-if delta for one issue.  The struct is referenced by whatif.go; its
definition and computeWhatIfDelta are not among the sources, so the fields are
the ones named by the spec and read by the callers in whatif.go.  The spec
fields DepthReduction and DaysSaved are omitted: no claim mentions them. -/
structure WhatIfDelta where
  directUnblocks : Nat
  transitiveUnblocks : Nat
  unblockedIssueIDs : List String
deriving DecidableEq, Repr

/-- One backward-reachability expansion step: add the sources of all blocking
edges whose target is already reached. -/
def expandBack (edges : List (String × String)) (s : List String) : List String :=
  s ++ (edges.filter (fun e => decide (e.2 ∈ s ∧ e.1 ∉ s))).map (·.1)

/-- Fuelled reverse-blocking closure: all issue ids with a blocking path into
the seed set, after `n` expansion rounds. -/
def reachBack (edges : List (String × String)) : Nat → List String → List String
  | 0, s => s
  | n + 1, s => reachBack edges n (expandBack edges s)

/-- Modelled from the spec: `computeWhatIfDelta` is not among the sources
(only its callers in whatif.go are).  Spec section 4.5: DirectUnblocks is the
number of open issues with X as a blocking dependency; TransitiveUnblocks
counts open issues reachable via reverse-blocking BFS from X;
UnblockedIssueIDs is the ordered list of the first `cap` of them (default cap
20, capping recorded in status). -/
def computeWhatIfDelta (issues : List Issue) (x : String) (cap : Nat) : WhatIfDelta :=
  let edges := blockingEdges issues
  let reach := reachBack edges issues.length [x]
  let transIssues := issues.filter
    (fun iss => decide (iss.status = Status.open ∧ iss.id ≠ x ∧ iss.id ∈ reach))
  let directIssues := issues.filter
    (fun iss => decide (iss.status = Status.open ∧ iss.id ≠ x ∧ x ∈ iss.blockDeps))
  { directUnblocks := directIssues.length
    transitiveUnblocks := transIssues.length
    unblockedIssueIDs := (transIssues.map (·.id)).take cap }

/-- The capped flag computed for ExplanationStatus in
GenerateEnhancedRecommendationsWithThresholds (whatif.go lines 153-158):
capped when len(whatIf.UnblockedIssueIDs) < whatIf.DirectUnblocks. -/
def whatIfStatusCapped (w : WhatIfDelta) : Bool :=
  decide (w.unblockedIssueIDs.length < w.directUnblocks)

/-! ## Top reasons (GenerateTopReasons, pkg/analysis/whatif.go) -/

/-- A single priority reason (struct PriorityReason). -/
structure PriorityReason where
  factor : String
  weight : ℚ
  explanation : String
  emoji : String
deriving DecidableEq, Repr

/-- The per-signal breakdown of an impact score, as read by
GenerateTopReasons.  The defining Go file is not among the sources; the
fields are exactly the ones whatif.go reads. -/
structure ImpactBreakdown where
  pageRank : ℚ := 0
  pageRankNorm : ℚ := 0
  betweenness : ℚ := 0
  betweennessNorm : ℚ := 0
  blockerRatio : ℚ := 0
  blockerRatioNorm : ℚ := 0
  staleness : ℚ := 0
  stalenessNorm : ℚ := 0
  priorityBoost : ℚ := 0
  priorityBoostNorm : ℚ := 0
  timeToImpact : ℚ := 0
  timeToImpactNorm : ℚ := 0
  urgency : ℚ := 0
  urgencyNorm : ℚ := 0
  risk : ℚ := 0
  riskNorm : ℚ := 0
deriving DecidableEq, Repr

/-- An impact score, with the fields whatif.go reads. -/
structure ImpactScore where
  issueID : String := ""
  title : String := ""
  score : ℚ := 0
  priority : Int := 2
  breakdown : ImpactBreakdown := {}
deriving DecidableEq, Repr

/-- One candidate factor row of GenerateTopReasons. -/
structure ScoreFactor where
  name : String
  weight : ℚ
  norm : ℚ
  explanation : String
  emoji : String
deriving DecidableEq, Repr

/-- The eight factor rows collected by GenerateTopReasons, in source order. -/
def factorsOf (score : ImpactScore) : List ScoreFactor :=
  [ ⟨"pagerank", score.breakdown.pageRank, score.breakdown.pageRankNorm,
      "Central in dependency graph", "🎯"⟩,
    ⟨"betweenness", score.breakdown.betweenness, score.breakdown.betweennessNorm,
      "Critical path bottleneck", "🔀"⟩,
    ⟨"blockers", score.breakdown.blockerRatio, score.breakdown.blockerRatioNorm,
      "High blocker count", "🚧"⟩,
    ⟨"staleness", score.breakdown.staleness, score.breakdown.stalenessNorm,
      "Needs attention (aging)", "⏰"⟩,
    ⟨"priority", score.breakdown.priorityBoost, score.breakdown.priorityBoostNorm,
      "Explicit priority set", "⭐"⟩,
    ⟨"time_to_impact", score.breakdown.timeToImpact, score.breakdown.timeToImpactNorm,
      "Fast impact potential", "⚡"⟩,
    ⟨"urgency", score.breakdown.urgency, score.breakdown.urgencyNorm,
      "Urgent labels/timing", "🔥"⟩,
    ⟨"risk", score.breakdown.risk, score.breakdown.riskNorm,
      "Risk/volatility factors", "⚠️"⟩ ]

/-- Weight-descending order on factors (the sort.Slice comparator sorts by
weighted contribution descending; Go insertion sort on 8 rows is stable, as
is this one). -/
def factorGE (a b : ScoreFactor) : Prop := b.weight ≤ a.weight

instance : DecidableRel factorGE := fun a b =>
  inferInstanceAs (Decidable (b.weight ≤ a.weight))

instance : IsTotal ScoreFactor factorGE := ⟨fun a b => le_total b.weight a.weight⟩

instance : IsTrans ScoreFactor factorGE :=
  ⟨fun _ _ _ hab hbc => le_trans hbc hab⟩

/-- Build a reason from a factor row, prefixing the explanation according to
the normalized value (norm > 0.7, > 0.4, > 0.2). -/
def mkReason (f : ScoreFactor) : PriorityReason :=
  { factor := f.name
    weight := f.weight
    explanation :=
      if 7/10 < f.norm then "Very high: " ++ f.explanation
      else if 4/10 < f.norm then "High: " ++ f.explanation
      else if 2/10 < f.norm then "Moderate: " ++ f.explanation
      else f.explanation
    emoji := f.emoji }

/-- The selection loop of GenerateTopReasons: skip factors with weight below
0.01, stop at 3 reasons.  `count` is the number of reasons taken so far. -/
def selectReasons : List ScoreFactor → Nat → List PriorityReason
  | [], _ => []
  | f :: rest, count =>
      if f.weight < 1/100 then selectReasons rest count
      else if 3 ≤ count then []
      else mkReason f :: selectReasons rest (count + 1)

/-- GenerateTopReasons: sort the factor rows by weight descending and take
the top reasons. -/
def GenerateTopReasons (score : ImpactScore) : List PriorityReason :=
  selectReasons (List.insertionSort factorGE (factorsOf score)) 0

/-! ## Enhanced recommendation ordering (pkg/analysis/whatif.go lines 196-206) -/

/-- An enhanced priority recommendation, with the fields the final sort and
the claimed tie-breaks read.  The embedded PriorityRecommendation struct is
not among the sources; the fields modelled are the ones the claims name. -/
structure EnhancedPriorityRecommendation where
  issueID : String
  priority : Int := 2
  updatedAt : Int := 0
  impactScore : ℚ
deriving DecidableEq, Repr

/-- The comparator of the final sort: impact score descending, nothing else
(sort.Slice(enhanced, ...ImpactScore > ...ImpactScore)). -/
def enhScoreGE (a b : EnhancedPriorityRecommendation) : Prop :=
  b.impactScore ≤ a.impactScore

instance : DecidableRel enhScoreGE := fun a b =>
  inferInstanceAs (Decidable (b.impactScore ≤ a.impactScore))

instance : IsTotal EnhancedPriorityRecommendation enhScoreGE :=
  ⟨fun a b => le_total b.impactScore a.impactScore⟩

instance : IsTrans EnhancedPriorityRecommendation enhScoreGE :=
  ⟨fun _ _ _ hab hbc => le_trans hbc hab⟩

/-- The final ordering-and-capping stage of
GenerateEnhancedRecommendationsWithThresholds: sort by impact score
descending, then cap at 10 items. -/
def sortAndCapEnhanced (l : List EnhancedPriorityRecommendation) :
    List EnhancedPriorityRecommendation :=
  (List.insertionSort enhScoreGE l).take 10

/-! ## TopWhatIfDeltas (pkg/analysis/whatif.go lines 226-266) -/

/-- One entry of the top what-if list (struct WhatIfEntry). -/
structure WhatIfEntry where
  issueID : String
  title : String
  delta : WhatIfDelta
deriving DecidableEq, Repr

/-- Sort key of TopWhatIfDeltas: transitive unblocks descending, then direct
unblocks descending, then issue ID ascending. -/
def whatIfEntryKey (e : WhatIfEntry) : Lex (Int × Lex (Int × List Char)) :=
  toLex (-(e.delta.transitiveUnblocks : Int),
    toLex (-(e.delta.directUnblocks : Int), e.issueID.data))

/-- Non-strict version of the TopWhatIfDeltas comparator. -/
def whatIfEntryLE (a b : WhatIfEntry) : Prop :=
  whatIfEntryKey a ≤ whatIfEntryKey b

instance : DecidableRel whatIfEntryLE := fun a b =>
  inferInstanceAs (Decidable (whatIfEntryKey a ≤ whatIfEntryKey b))

instance : IsTotal WhatIfEntry whatIfEntryLE :=
  ⟨fun a b => le_total (whatIfEntryKey a) (whatIfEntryKey b)⟩

instance : IsTrans WhatIfEntry whatIfEntryLE :=
  ⟨fun _ _ _ hab hbc => le_trans hab hbc⟩

/-- The loop body of TopWhatIfDeltas: skip closed issues and issues without
a delta, keep those with positive direct or transitive unblocks. -/
def whatIfCandidate (delta : String → Option WhatIfDelta) (iss : Issue) :
    Option WhatIfEntry :=
  if iss.status = Status.closed then none
  else
    match delta iss.id with
    | none => none
    | some d =>
        if 0 < d.directUnblocks ∨ 0 < d.transitiveUnblocks then
          some { issueID := iss.id, title := iss.title, delta := d }
        else none

/-- TopWhatIfDeltas: collect the candidates, sort, return the first n
(n defaults to 10 when not positive).  The issue map iteration and the delta
computation of the Analyzer are abstracted into the issue list and the
`delta` function. -/
def TopWhatIfDeltas (issues : List Issue) (delta : String → Option WhatIfDelta)
    (n : Int) : List WhatIfEntry :=
  let n := if n ≤ 0 then (10 : Int) else n
  let results := issues.filterMap (whatIfCandidate delta)
  (List.insertionSort whatIfEntryLE results).take n.toNat

/-! ## Triage orchestration (modelled from the spec, sections 4.6 and 8) -/

/-- Whether the blocking dependency on target `t` is satisfied: edges to
closed targets are treated as satisfied; unknown targets are dropped from
the graph, hence also non-blocking. -/
def depSatisfied (issues : List Issue) (t : String) : Bool :=
  match issues.find? (fun j => j.id = t) with
  | none => true
  | some j => j.status = Status.closed

/-- Actionable issue: open or in-progress with every blocking dependency
target closed (spec glossary). -/
def isActionable (issues : List Issue) (iss : Issue) : Bool :=
  (iss.status = Status.open || iss.status = Status.inProgress) &&
    iss.blockDeps.all (depSatisfied issues)

/-- Whether some blocking cycle exists: an edge whose target reaches back to
its source. -/
def triageHasCycles (issues : List Issue) : Bool :=
  let edges := blockingEdges issues
  edges.any (fun e => decide (e.2 ∈ reachBack edges issues.length [e.1]))

/-- Whether an issue lies on some blocking cycle: one of its blocking
targets reaches back to it. -/
def onCycle (issues : List Issue) (iss : Issue) : Bool :=
  let edges := blockingEdges issues
  ((edges.filter (fun e => e.1 = iss.id)).map (·.2)).any
    (fun t => decide (t ∈ reachBack edges issues.length [iss.id]))

/-- One triage recommendation (only the identity is modelled). -/
structure TriageRecommendation where
  issueID : String
deriving DecidableEq, Repr

/-- A blocker entry: a non-closed issue and how many open issues block on it. -/
structure BlockerInfo where
  id : String
  unblocksCount : Nat
deriving DecidableEq, Repr

/-- Status and type counts of the project health shape. -/
structure TriageCounts where
  total : Nat
  openCount : Nat
  inProgressCount : Nat
  blockedCount : Nat
  closedCount : Nat
  actionableCount : Nat
deriving DecidableEq, Repr

/-- Copy-paste command strings of the triage result. -/
structure TriageCommands where
  listReady : String
  claimTop : String
deriving DecidableEq, Repr

/-- The triage result shape, restricted to the parts the claims name. -/
structure TriageResult where
  recommendations : List TriageRecommendation
  quickWins : List String
  blockersToClear : List BlockerInfo
  topPicks : List String
  counts : TriageCounts
  hasCycles : Bool
  cycleCount : Nat
  commands : TriageCommands
deriving DecidableEq, Repr

/-- Recommendation ranking key modelled from the spec: priority ascending,
updatedAt descending, id ascending. -/
def triageRecKey (iss : Issue) : Lex (Int × Lex (Int × List Char)) :=
  toLex (iss.priority, toLex (-iss.updatedAt, iss.id.data))

/-- Non-strict recommendation ranking order. -/
def triageRecLE (a b : Issue) : Prop := triageRecKey a ≤ triageRecKey b

instance : DecidableRel triageRecLE := fun a b =>
  inferInstanceAs (Decidable (triageRecKey a ≤ triageRecKey b))

instance : IsTotal Issue triageRecLE :=
  ⟨fun a b => le_total (triageRecKey a) (triageRecKey b)⟩

instance : IsTrans Issue triageRecLE :=
  ⟨fun _ _ _ hab hbc => le_trans hab hbc⟩

/-- Modelled from the spec: `ComputeTriage` is not among the sources (only
its tests are).  Spec section 4.6: quick-ref counts and top-3, ranked
recommendations (cap 10), quick wins (cap 5), blockers to clear (cap 5),
graph health with cycle flag and count, and copy-paste commands; the
orchestrator never fails on empty input and command strings fall back to
neutral text instead of interpolating an empty issue id.  The quick-win
estimate filter and the simple-cycle enumeration are abstracted: quick wins
are the first actionable issues, and the cycle count counts issues on
blocking cycles (zero exactly when no cycle exists). -/
def ComputeTriage (issues : List Issue) : TriageResult :=
  let openIssues := issues.filter (fun iss => decide (iss.status ≠ Status.closed))
  let ranked := List.insertionSort triageRecLE
    (issues.filter (fun iss =>
      iss.status = Status.open || iss.status = Status.inProgress))
  let recommendations := (ranked.take 10).map (fun iss => ⟨iss.id⟩)
  let actionable := issues.filter (isActionable issues)
  let blockers := openIssues.filterMap (fun iss =>
    let cnt := (openIssues.filter (fun j => decide (iss.id ∈ j.blockDeps))).length
    if 0 < cnt then some (⟨iss.id, cnt⟩ : BlockerInfo) else none)
  { recommendations := recommendations
    quickWins := (actionable.take 5).map (·.id)
    blockersToClear := blockers.take 5
    topPicks := (recommendations.take 3).map (·.issueID)
    counts :=
      { total := issues.length
        openCount := (issues.filter (fun iss => decide (iss.status = Status.open))).length
        inProgressCount :=
          (issues.filter (fun iss => decide (iss.status = Status.inProgress))).length
        blockedCount :=
          (issues.filter (fun iss => decide (iss.status = Status.blocked))).length
        closedCount :=
          (issues.filter (fun iss => decide (iss.status = Status.closed))).length
        actionableCount := actionable.length }
    hasCycles := triageHasCycles issues
    cycleCount := (issues.filter (onCycle issues)).length
    commands :=
      { listReady := "bd ready"
        claimTop :=
          match recommendations.head? with
          | some r => "bd update " ++ r.issueID ++ " --status=in_progress"
          | none => "bd ready # nothing to claim yet" } }

/-! ## Instance lock takeover (pkg/instance/lock.go, checkStale) -/

/-- The visible state of one process running checkStale.  `pc` walks the
atomic filesystem steps of the takeover path: 0 = about to re-read the lock
file, 1 = about to create and write the temp file, 2 = about to rename the
temp file over the lock path, 3 = about to re-read for verification,
4 = returned.  `obsPid` is the l.pid field; `isFirst` the l.isFirst field. -/
structure LockProc where
  pid : Nat
  pc : Nat := 0
  isFirst : Bool := false
  obsPid : Nat := 0
deriving DecidableEq, Repr

/-- The shared filesystem state (content of the lock file, as the recorded
holder pid) together with two processes racing through checkStale. -/
structure LockWorld where
  file : Option Nat
  proc1 : LockProc
  proc2 : LockProc
deriving DecidableEq, Repr

/-- One atomic step of checkStale for a single process.  Step 0 re-reads the
lock file, returns if it is unreadable, records the holder and returns if
the holder is alive, and otherwise proceeds to takeover.  Step 1 writes the
process info to a temp file (no shared effect).  Step 2 atomically renames
the temp file over the lock path.  Step 3 re-reads the lock file and claims
first-instance ownership only when it shows the process own pid. -/
def stepProc (alive : Nat → Bool) (file : Option Nat) (p : LockProc) :
    Option Nat × LockProc :=
  match p.pc with
  | 0 =>
      match file with
      | none => (file, { p with pc := 4 })
      | some q =>
          if alive q then (file, { p with pc := 4, obsPid := q })
          else (file, { p with pc := 1 })
  | 1 => (file, { p with pc := 2 })
  | 2 => (some p.pid, { p with pc := 3 })
  | 3 =>
      match file with
      | some q =>
          if q = p.pid then (file, { p with pc := 4, isFirst := true, obsPid := p.pid })
          else (file, { p with pc := 4 })
      | none => (file, { p with pc := 4 })
  | _ => (file, p)

/-- Schedule one step: `true` steps process 1, `false` steps process 2. -/
def stepWorld (alive : Nat → Bool) (w : LockWorld) (chooseFirst : Bool) : LockWorld :=
  if chooseFirst then
    let (f, p) := stepProc alive w.file w.proc1
    { w with file := f, proc1 := p }
  else
    let (f, p) := stepProc alive w.file w.proc2
    { w with file := f, proc2 := p }

/-- Run a whole interleaving schedule. -/
def runSched (alive : Nat → Bool) (w : LockWorld) (sched : List Bool) : LockWorld :=
  sched.foldl (stepWorld alive) w

/-! ## Lemmas about the edge-frequency table -/

/-- Value stored under key `e` in the edge-frequency association list. -/
def lookupIdx (e : String × String) :
    List ((String × String) × List Nat) → Option (List Nat)
  | [] => none
  | (k, ixs) :: rest => if k = e then some ixs else lookupIdx e rest

/-- The keys of the edge-frequency association list. -/
def freqKeys (f : List ((String × String) × List Nat)) : List (String × String) :=
  f.map (·.1)

theorem lookupIdx_addIdx_self (e : String × String) (i : Nat)
    (f : List ((String × String) × List Nat)) :
    lookupIdx e (addIdx e i f) = some ((lookupIdx e f).getD [] ++ [i]) := by
  induction f with
  | nil => simp [addIdx, lookupIdx]
  | cons hd tl ih =>
      obtain ⟨k, ixs⟩ := hd
      by_cases hk : k = e
      · subst hk
        simp [addIdx, lookupIdx]
      · simp [addIdx, lookupIdx, hk, ih]

theorem freqKeys_cons (k : String × String) (ixs : List Nat)
    (tl : List ((String × String) × List Nat)) :
    freqKeys ((k, ixs) :: tl) = k :: freqKeys tl := rfl

theorem lookupIdx_addIdx_ne {k e : String × String} (hne : k ≠ e) (i : Nat)
    (f : List ((String × String) × List Nat)) :
    lookupIdx k (addIdx e i f) = lookupIdx k f := by
  have hne' : ¬(e = k) := fun h => hne h.symm
  induction f with
  | nil => simp [addIdx, lookupIdx, hne']
  | cons hd tl ih =>
      obtain ⟨k', ixs⟩ := hd
      by_cases hk : k' = e
      · subst hk
        simp [addIdx, lookupIdx, hne']
      · simp [addIdx, lookupIdx, hk, ih]

theorem freqKeys_addIdx (e : String × String) (i : Nat)
    (f : List ((String × String) × List Nat)) :
    freqKeys (addIdx e i f) = freqKeys f ∨
      freqKeys (addIdx e i f) = freqKeys f ++ [e] := by
  induction f with
  | nil => right; simp [addIdx, freqKeys]
  | cons hd tl ih =>
      obtain ⟨k, ixs⟩ := hd
      by_cases hk : k = e
      · left; simp [addIdx, freqKeys, hk]
      · rcases ih with h | h
        · left; simp [addIdx, freqKeys, hk] at h ⊢; exact h
        · right; simp [addIdx, freqKeys, hk] at h ⊢; exact h

theorem nodup_freqKeys_addIdx (e : String × String) (i : Nat)
    {f : List ((String × String) × List Nat)}
    (hf : (freqKeys f).Nodup) : (freqKeys (addIdx e i f)).Nodup := by
  induction f with
  | nil => simp [addIdx, freqKeys]
  | cons hd tl ih =>
      obtain ⟨k, ixs⟩ := hd
      rw [freqKeys_cons, List.nodup_cons] at hf
      by_cases hk : k = e
      · subst hk
        have heq : addIdx k i ((k, ixs) :: tl) = (k, ixs ++ [i]) :: tl := by
          simp [addIdx]
        rw [heq, freqKeys_cons, List.nodup_cons]
        exact hf
      · have heq : addIdx e i ((k, ixs) :: tl) = (k, ixs) :: addIdx e i tl := by
          simp [addIdx, hk]
        rw [heq, freqKeys_cons, List.nodup_cons]
        refine ⟨?_, ih hf.2⟩
        intro hmem
        rcases freqKeys_addIdx e i tl with h | h
        · rw [h] at hmem
          exact hf.1 hmem
        · rw [h] at hmem
          rcases List.mem_append.mp hmem with h1 | h1
          · exact hf.1 h1
          · exact hk (List.mem_singleton.mp h1)

theorem lookupIdx_of_mem {entry : (String × String) × List Nat}
    {f : List ((String × String) × List Nat)}
    (hf : (freqKeys f).Nodup) (hmem : entry ∈ f) :
    lookupIdx entry.1 f = some entry.2 := by
  induction f with
  | nil => cases hmem
  | cons hd tl ih =>
      obtain ⟨k, ixs⟩ := hd
      rw [freqKeys_cons, List.nodup_cons] at hf
      rcases List.mem_cons.mp hmem with h | h
      · subst h
        simp [lookupIdx]
      · have hk : k ≠ entry.1 := by
          intro hkey
          exact hf.1 (hkey ▸ List.mem_map.mpr ⟨entry, h, rfl⟩)
        simp [lookupIdx, hk, ih hf.2 h]

theorem lookupIdx_addAll_notMem {e : String × String}
    {es : List (String × String)} (hne : e ∉ es) (i : Nat)
    (f : List ((String × String) × List Nat)) :
    lookupIdx e (addAll es i f) = lookupIdx e f := by
  induction es generalizing f with
  | nil => rfl
  | cons hd tl ih =>
      have hhd : e ≠ hd := fun h => hne (h ▸ List.mem_cons_self hd tl)
      have htl : e ∉ tl := fun h => hne (List.mem_cons_of_mem hd h)
      show lookupIdx e (addAll tl i (addIdx hd i f)) = lookupIdx e f
      rw [ih htl, lookupIdx_addIdx_ne hhd]

theorem lookupIdx_addAll_mem {e : String × String}
    {es : List (String × String)} (hnd : es.Nodup) (hmem : e ∈ es) (i : Nat)
    (f : List ((String × String) × List Nat)) :
    lookupIdx e (addAll es i f) = some ((lookupIdx e f).getD [] ++ [i]) := by
  induction es generalizing f with
  | nil => cases hmem
  | cons hd tl ih =>
      rcases List.nodup_cons.mp hnd with ⟨hhd, htl⟩
      rcases List.mem_cons.mp hmem with h | h
      · subst h
        show lookupIdx e (addAll tl i (addIdx e i f)) = _
        rw [lookupIdx_addAll_notMem hhd, lookupIdx_addIdx_self]
      · have hne : e ≠ hd := fun hx => hhd (hx ▸ h)
        show lookupIdx e (addAll tl i (addIdx hd i f)) = _
        rw [ih htl h, lookupIdx_addIdx_ne hne]

theorem nodup_freqKeys_addAll (es : List (String × String)) (i : Nat)
    {f : List ((String × String) × List Nat)}
    (hf : (freqKeys f).Nodup) : (freqKeys (addAll es i f)).Nodup := by
  induction es generalizing f with
  | nil => exact hf
  | cons hd tl ih => exact ih (nodup_freqKeys_addIdx hd i hf)

theorem nodup_freqKeys_buildAux :
    ∀ (k : Nat) (cs : List (List String))
      (f : List ((String × String) × List Nat)),
      (freqKeys f).Nodup → (freqKeys (buildAux k cs f)).Nodup := by
  intro k cs
  induction cs generalizing k with
  | nil => intro f hf; exact hf
  | cons c cs ih =>
      intro f hf
      show (freqKeys (buildAux (k + 1) cs _)).Nodup
      by_cases hv : validCycle c
      · simp only [hv, if_true]
        exact ih (k + 1) _ (nodup_freqKeys_addAll _ k hf)
      · simp only [hv, if_false]
        exact ih (k + 1) _ hf

/-- The cycle indices, counted from `k`, of the valid cycles containing edge
`e` (the specification-side description of the edge-frequency values). -/
def cyclesWithEdgeAux (e : String × String) : Nat → List (List String) → List Nat
  | _, [] => []
  | k, c :: cs =>
      (if validCycle c ∧ e ∈ cycleEdges c then [k] else []) ++
        cyclesWithEdgeAux e (k + 1) cs

/-- The indices of the valid cycles containing edge `e`. -/
def cyclesWithEdge (e : String × String) (cycles : List (List String)) : List Nat :=
  cyclesWithEdgeAux e 0 cycles

theorem lookupIdx_buildAux (e : String × String) :
    ∀ (cs : List (List String)),
      (∀ c ∈ cs, validCycle c = true → (cycleEdges c).Nodup) →
      ∀ (k : Nat) (f : List ((String × String) × List Nat)),
      lookupIdx e (buildAux k cs f) =
        if cyclesWithEdgeAux e k cs = [] then lookupIdx e f
        else some ((lookupIdx e f).getD [] ++ cyclesWithEdgeAux e k cs) := by
  intro cs
  induction cs with
  | nil => intro _ k f; simp [buildAux, cyclesWithEdgeAux]
  | cons c cs ih =>
      intro H k f
      have Hc := H c (List.mem_cons_self c cs)
      have Hcs : ∀ c' ∈ cs, validCycle c' = true → (cycleEdges c').Nodup :=
        fun c' h => H c' (List.mem_cons_of_mem c h)
      have hbuild : buildAux k (c :: cs) f =
          buildAux (k + 1) cs (if validCycle c then addAll (cycleEdges c) k f else f) :=
        rfl
      by_cases hv : validCycle c
      · by_cases hm : e ∈ cycleEdges c
        · have hstep : lookupIdx e (addAll (cycleEdges c) k f)
              = some ((lookupIdx e f).getD [] ++ [k]) :=
            lookupIdx_addAll_mem (Hc hv) hm k f
          have hcw : cyclesWithEdgeAux e k (c :: cs)
              = k :: cyclesWithEdgeAux e (k + 1) cs := by
            simp [cyclesWithEdgeAux, hv, hm]
          rw [hbuild, if_pos hv, ih Hcs (k + 1), hstep, hcw]
          by_cases hrest : cyclesWithEdgeAux e (k + 1) cs = []
          · rw [if_pos hrest, hrest]
            simp
          · rw [if_neg hrest, if_neg (by simp)]
            simp
        · have hcw : cyclesWithEdgeAux e k (c :: cs)
              = cyclesWithEdgeAux e (k + 1) cs := by
            simp [cyclesWithEdgeAux, hv, hm]
          have hstep : lookupIdx e (addAll (cycleEdges c) k f) = lookupIdx e f :=
            lookupIdx_addAll_notMem hm k f
          rw [hbuild, if_pos hv, ih Hcs (k + 1), hstep, hcw]
      · have hcw : cyclesWithEdgeAux e k (c :: cs)
            = cyclesWithEdgeAux e (k + 1) cs := by
          simp [cyclesWithEdgeAux, hv]
        rw [hbuild, if_neg hv, ih Hcs (k + 1), hcw]

/-- Main characterization: under per-cycle simplicity, every entry of the
edge-frequency table stores exactly the indices of the valid cycles
containing its edge. -/
theorem buildEdgeFreq_entry_eq {cycles : List (List String)}
    (H : ∀ c ∈ cycles, validCycle c = true → (cycleEdges c).Nodup)
    {entry : (String × String) × List Nat}
    (hmem : entry ∈ buildEdgeFreq cycles) :
    entry.2 = cyclesWithEdge entry.1 cycles ∧ entry.2 ≠ [] := by
  have hnd : (freqKeys (buildEdgeFreq cycles)).Nodup :=
    nodup_freqKeys_buildAux 0 cycles [] (by simp [freqKeys])
  have hlook := lookupIdx_of_mem hnd hmem
  rw [show buildEdgeFreq cycles = buildAux 0 cycles [] from rfl,
    lookupIdx_buildAux entry.1 cycles H 0 []] at hlook
  by_cases hcw : cyclesWithEdgeAux entry.1 0 cycles = []
  · rw [if_pos hcw] at hlook
    cases hlook
  · rw [if_neg hcw] at hlook
    have : entry.2 = cyclesWithEdgeAux entry.1 0 cycles := by
      simpa [lookupIdx] using hlook.symm
    exact ⟨this, this ▸ hcw⟩

theorem mem_lookupIdx_addIdx {e' e : String × String} {j i : Nat}
    {f : List ((String × String) × List Nat)}
    (h : i ∈ (lookupIdx e' (addIdx e j f)).getD []) :
    i ∈ (lookupIdx e' f).getD [] ∨ (i = j ∧ e' = e) := by
  by_cases he : e' = e
  · subst he
    rw [lookupIdx_addIdx_self] at h
    simp only [Option.getD_some] at h
    rcases List.mem_append.mp h with h1 | h1
    · exact Or.inl h1
    · exact Or.inr ⟨List.mem_singleton.mp h1, rfl⟩
  · rw [lookupIdx_addIdx_ne he] at h
    exact Or.inl h

theorem mem_lookupIdx_addAll {e' : String × String} {es : List (String × String)}
    {j i : Nat} :
    ∀ {f : List ((String × String) × List Nat)},
      i ∈ (lookupIdx e' (addAll es j f)).getD [] →
      i ∈ (lookupIdx e' f).getD [] ∨ (i = j ∧ e' ∈ es) := by
  induction es with
  | nil => intro f h; exact Or.inl h
  | cons hd tl ih =>
      intro f h
      rcases ih (f := addIdx hd j f) h with h1 | h1
      · rcases mem_lookupIdx_addIdx h1 with h2 | h2
        · exact Or.inl h2
        · exact Or.inr ⟨h2.1, h2.2 ▸ List.mem_cons_self hd tl⟩
      · exact Or.inr ⟨h1.1, List.mem_cons_of_mem hd h1.2⟩

theorem mem_lookupIdx_buildAux {e : String × String} {i : Nat} :
    ∀ (k : Nat) (cs : List (List String))
      (f : List ((String × String) × List Nat)),
      i ∈ (lookupIdx e (buildAux k cs f)).getD [] →
      i ∈ (lookupIdx e f).getD [] ∨
        ∃ m, m < cs.length ∧ i = k + m ∧
          validCycle (cs.getD m []) = true ∧ e ∈ cycleEdges (cs.getD m []) := by
  intro k cs
  induction cs generalizing k with
  | nil => intro f h; exact Or.inl h
  | cons c cs ih =>
      intro f h
      have hb : buildAux k (c :: cs) f =
          buildAux (k + 1) cs (if validCycle c then addAll (cycleEdges c) k f else f) :=
        rfl
      rw [hb] at h
      rcases ih (k + 1) _ h with h1 | h1
      · by_cases hv : validCycle c
        · rw [if_pos hv] at h1
          rcases mem_lookupIdx_addAll h1 with h2 | h2
          · exact Or.inl h2
          · exact Or.inr ⟨0, by simp, by omega, by simp [hv], by simpa using h2.2⟩
        · rw [if_neg hv] at h1
          exact Or.inl h1
      · obtain ⟨m, hm, hi, hvc, hec⟩ := h1
        exact Or.inr ⟨m + 1, by simpa using hm, by omega, by simpa using hvc,
          by simpa using hec⟩

theorem addIdx_values_ne_nil {e : String × String} {j : Nat}
    {f : List ((String × String) × List Nat)}
    (hf : ∀ entry ∈ f, entry.2 ≠ []) :
    ∀ entry ∈ addIdx e j f, entry.2 ≠ [] := by
  induction f with
  | nil =>
      intro entry hmem
      rcases List.mem_singleton.mp hmem with rfl
      simp
  | cons hd tl ih =>
      obtain ⟨k, ixs⟩ := hd
      have hhd := hf (k, ixs) (List.mem_cons_self _ _)
      have htl : ∀ entry ∈ tl, entry.2 ≠ [] :=
        fun entry h => hf entry (List.mem_cons_of_mem _ h)
      intro entry hmem
      by_cases hk : k = e
      · subst hk
        have heq : addIdx k j ((k, ixs) :: tl) = (k, ixs ++ [j]) :: tl := by
          simp [addIdx]
        rw [heq] at hmem
        rcases List.mem_cons.mp hmem with h | h
        · subst h; simp
        · exact htl entry h
      · have heq : addIdx e j ((k, ixs) :: tl) = (k, ixs) :: addIdx e j tl := by
          simp [addIdx, hk]
        rw [heq] at hmem
        rcases List.mem_cons.mp hmem with h | h
        · subst h; exact hhd
        · exact ih htl entry h

theorem addAll_values_ne_nil {es : List (String × String)} {j : Nat} :
    ∀ {f : List ((String × String) × List Nat)},
      (∀ entry ∈ f, entry.2 ≠ []) →
      ∀ entry ∈ addAll es j f, entry.2 ≠ [] := by
  induction es with
  | nil => intro f hf; exact hf
  | cons hd tl ih =>
      intro f hf
      exact ih (addIdx_values_ne_nil hf)

theorem buildAux_values_ne_nil :
    ∀ (k : Nat) (cs : List (List String))
      (f : List ((String × String) × List Nat)),
      (∀ entry ∈ f, entry.2 ≠ []) →
      ∀ entry ∈ buildAux k cs f, entry.2 ≠ [] := by
  intro k cs
  induction cs generalizing k with
  | nil => intro f hf; exact hf
  | cons c cs ih =>
      intro f hf
      show ∀ entry ∈ buildAux (k + 1) cs _, entry.2 ≠ []
      by_cases hv : validCycle c
      · simp only [hv, if_true]
        exact ih (k + 1) _ (addAll_values_ne_nil hf)
      · simp only [hv, if_false]
        exact ih (k + 1) _ hf

/-- Every index recorded in the final edge-frequency table points at a valid
cycle that contains the entry edge. -/
theorem buildEdgeFreq_entry_sound {cycles : List (List String)}
    {entry : (String × String) × List Nat}
    (hmem : entry ∈ buildEdgeFreq cycles) {i : Nat} (hi : i ∈ entry.2) :
    i < cycles.length ∧ validCycle (cycles.getD i []) = true ∧
      entry.1 ∈ cycleEdges (cycles.getD i []) := by
  have hnd : (freqKeys (buildEdgeFreq cycles)).Nodup :=
    nodup_freqKeys_buildAux 0 cycles [] (by simp [freqKeys])
  have hlook := lookupIdx_of_mem hnd hmem
  have hget : i ∈ (lookupIdx entry.1 (buildAux 0 cycles [])).getD [] := by
    rw [show buildEdgeFreq cycles = buildAux 0 cycles [] from rfl] at hlook
    rw [hlook]
    simpa using hi
  rcases mem_lookupIdx_buildAux 0 cycles [] hget with h | h
  · simp [lookupIdx] at h
  · obtain ⟨m, hm, hi0, hvc, hec⟩ := h
    refine ⟨by omega, ?_, ?_⟩
    · simpa [show i = m by omega] using hvc
    · simpa [show i = m by omega] using hec

/-! ## Cycle edge helper lemmas -/

theorem cycleEdges_nodup {c : List String} (h : c.Nodup) :
    (cycleEdges c).Nodup := by
  cases c with
  | nil => simp [cycleEdges]
  | cons x rest =>
      have hlen : (x :: rest).length ≤ (rest ++ [x]).length := by
        simp
      have hmap : List.map Prod.fst ((x :: rest).zip (rest ++ [x])) = x :: rest :=
        List.map_fst_zip _ _ hlen
      have : (List.map Prod.fst ((x :: rest).zip (rest ++ [x]))).Nodup := by
        rw [hmap]; exact h
      exact List.Nodup.of_map Prod.fst this

theorem mem_of_mem_cycleEdges {c : List String} {e : String × String}
    (h : e ∈ cycleEdges c) : e.1 ∈ c ∧ e.2 ∈ c := by
  cases c with
  | nil => simp [cycleEdges] at h
  | cons x rest =>
      obtain ⟨a, b⟩ := e
      have := List.of_mem_zip (show (a, b) ∈ (x :: rest).zip (rest ++ [x]) from h)
      refine ⟨this.1, ?_⟩
      rcases List.mem_append.mp this.2 with h1 | h1
      · exact List.mem_cons_of_mem x h1
      · rw [List.mem_singleton.mp h1]
        exact List.mem_cons_self x rest

theorem validCycle_shape {c : List String} (h : validCycle c = true) :
    ∃ x y rest, c = x :: y :: rest ∧
      x ≠ "CYCLE_DETECTION_TIMEOUT" ∧ x ≠ "..." := by
  cases c with
  | nil => simp [validCycle] at h
  | cons x c' =>
      cases c' with
      | nil => simp [validCycle] at h
      | cons y rest =>
          simp only [validCycle, Bool.and_eq_true, decide_eq_true_eq] at h
          exact ⟨x, y, rest, rfl, h.1, h.2⟩

/-! ## Claim-side ranking relation for cycle-break suggestions -/

/-- The claimed ranking order on suggestions: impact (cycles affected)
descending, then source id ascending, then target id ascending.  String ids
are compared through their character lists (lexicographic order). -/
def suggRankedBefore (s t : CycleBreakItem) : Prop :=
  t.impact < s.impact ∨
    (s.impact = t.impact ∧
      (s.edgeFrom.data < t.edgeFrom.data ∨
        (s.edgeFrom = t.edgeFrom ∧ s.edgeTo.data ≤ t.edgeTo.data)))

theorem string_data_inj {a b : String} (h : a.data = b.data) : a = b :=
  String.ext h

theorem edgeEntryLE_mkSuggestion {cd : String → Nat}
    {r r' : (String × String) × List Nat} (h : edgeEntryLE r r') :
    suggRankedBefore (mkSuggestion cd r) (mkSuggestion cd r') := by
  unfold edgeEntryLE edgeEntryKey at h
  rw [Prod.Lex.le_iff] at h
  rcases h with h | ⟨h1, h2⟩
  · left
    have : (r'.2.length : Int) < r.2.length := neg_lt_neg_iff.mp h
    exact_mod_cast this
  · have hlen : r.2.length = r'.2.length := by
      have := neg_inj.mp h1
      exact_mod_cast this
    rw [Prod.Lex.le_iff] at h2
    rcases h2 with h2 | ⟨h2a, h2b⟩
    · exact Or.inr ⟨hlen, Or.inl h2⟩
    · exact Or.inr ⟨hlen, Or.inr ⟨string_data_inj h2a, h2b⟩⟩

/-! ## Bridging lemmas for generateCycleBreakSuggestions -/

theorem suggestions_eq_of_ne_nil {countDep : String → Nat}
    {cycles : List (List String)} {limit : Nat} (h : cycles ≠ []) :
    (generateCycleBreakSuggestions countDep cycles limit).suggestions =
      ((rankedEdges cycles).take limit).map (mkSuggestion countDep) := by
  simp [generateCycleBreakSuggestions, h]

theorem mem_suggestions {countDep : String → Nat}
    {cycles : List (List String)} {limit : Nat} {s : CycleBreakItem}
    (hs : s ∈ (generateCycleBreakSuggestions countDep cycles limit).suggestions) :
    ∃ r ∈ buildEdgeFreq cycles, s = mkSuggestion countDep r := by
  by_cases hc : cycles = []
  · simp [generateCycleBreakSuggestions, hc] at hs
  · rw [suggestions_eq_of_ne_nil hc] at hs
    obtain ⟨r, hr, hmk⟩ := List.mem_map.mp hs
    have hr2 : r ∈ rankedEdges cycles := List.take_subset _ _ hr
    have hr3 : r ∈ buildEdgeFreq cycles :=
      (List.perm_insertionSort edgeEntryLE (buildEdgeFreq cycles)).subset hr2
    exact ⟨r, hr3, hmk.symm⟩

/-- C3: For every cycle-break suggestion and every cycle index listed in its
in_cycles annotation, the suggested edge (edge_from, edge_to) occurs as a
consecutive pair in the cycle at that index, the closing pair from the last
node back to the first included (cycleEdges lists exactly those pairs). -/
theorem c3_suggested_edge_in_annotated_cycles
    (countDep : String → Nat) (cycles : List (List String)) (limit : Nat) :
    ∀ s ∈ (generateCycleBreakSuggestions countDep cycles limit).suggestions,
      ∀ i ∈ s.inCycles,
        i < cycles.length ∧
          (s.edgeFrom, s.edgeTo) ∈ cycleEdges (cycles.getD i []) := by
  intro s hs i hi
  obtain ⟨r, hrmem, hmk⟩ := mem_suggestions hs
  subst hmk
  have hi' : i ∈ r.2 := hi
  have hsound := buildEdgeFreq_entry_sound hrmem hi'
  refine ⟨hsound.1, ?_⟩
  have hpair :
      ((mkSuggestion countDep r).edgeFrom, (mkSuggestion countDep r).edgeTo) = r.1 := by
    simp [mkSuggestion]
  rw [hpair]
  exact hsound.2.2

/-- Concrete instantiation of the C3 theorem. -/
def c3SampleItem : CycleBreakItem :=
  { edgeFrom := "a", edgeTo := "b", impact := 2, collateral := 0
    inCycles := [0, 1]
    rationale := "Appears in most cycles; removing minimizes structural damage." }

theorem c3_suggested_edge_in_annotated_cycles_witness :
    (c3SampleItem ∈
        (generateCycleBreakSuggestions (fun _ => 0) [["a", "b"], ["b", "a"]] 5).suggestions) ∧
      (0 ∈ c3SampleItem.inCycles) ∧
      (0 < ([["a", "b"], ["b", "a"]] : List (List String)).length ∧
        (c3SampleItem.edgeFrom, c3SampleItem.edgeTo) ∈
          cycleEdges ([["a", "b"], ["b", "a"]].getD 0 [])) :=
  ⟨by decide, by decide,
    c3_suggested_edge_in_annotated_cycles (fun _ => 0) [["a", "b"], ["b", "a"]] 5
      c3SampleItem (by decide) 0 (by decide)⟩

/-- C7: the cycle-break result reports capped exactly when the number of
distinct ranked edges exceeds the limit, limited always carries the full
ranked-edge count, and count equals the number of suggestions returned,
which is the limit-capped number of ranked edges. -/
theorem c7_cycle_break_capping (countDep : String → Nat)
    (cycles : List (List String)) (limit : Nat) :
    ((generateCycleBreakSuggestions countDep cycles limit).status.capped = true ↔
        limit < (buildEdgeFreq cycles).length) ∧
      (generateCycleBreakSuggestions countDep cycles limit).status.limited =
        (buildEdgeFreq cycles).length ∧
      (generateCycleBreakSuggestions countDep cycles limit).status.count =
        (generateCycleBreakSuggestions countDep cycles limit).suggestions.length ∧
      (generateCycleBreakSuggestions countDep cycles limit).suggestions.length =
        min limit (buildEdgeFreq cycles).length ∧
      (generateCycleBreakSuggestions countDep cycles limit).suggestions.length ≤ limit := by
  have hlen : (rankedEdges cycles).length = (buildEdgeFreq cycles).length :=
    (List.perm_insertionSort edgeEntryLE (buildEdgeFreq cycles)).length_eq
  by_cases hc : cycles = []
  · subst hc
    simp [generateCycleBreakSuggestions, buildEdgeFreq, buildAux]
  · refine ⟨?_, ?_, ?_, ?_, ?_⟩
    · simp [generateCycleBreakSuggestions, hc, hlen]
    · simp [generateCycleBreakSuggestions, hc, hlen]
    · simp [generateCycleBreakSuggestions, hc]
    · simp [generateCycleBreakSuggestions, hc, List.length_take, hlen]
    · simp only [suggestions_eq_of_ne_nil hc, List.length_map, List.length_take]
      exact min_le_left _ _

/-- C10: sentinel cycle entries (head CYCLE_DETECTION_TIMEOUT or ...) and
entries with fewer than 2 nodes contribute no edges: every annotated cycle
index points at a valid cycle, no suggested edge endpoint is a sentinel
marker (sentinels occur only as entry heads), yet cycle_count equals the
full length of the cycles list, sentinel entries included. -/
theorem c10_sentinel_cycles_excluded (countDep : String → Nat)
    (cycles : List (List String)) (limit : Nat)
    (H : ∀ c ∈ cycles,
      (c.head? = some "CYCLE_DETECTION_TIMEOUT" ∨ c.head? = some "...") ∨
        ∀ x ∈ c, x ≠ "CYCLE_DETECTION_TIMEOUT" ∧ x ≠ "...") :
    (generateCycleBreakSuggestions countDep cycles limit).cycleCount = cycles.length ∧
      ∀ s ∈ (generateCycleBreakSuggestions countDep cycles limit).suggestions,
        (s.edgeFrom ≠ "CYCLE_DETECTION_TIMEOUT" ∧ s.edgeFrom ≠ "..." ∧
          s.edgeTo ≠ "CYCLE_DETECTION_TIMEOUT" ∧ s.edgeTo ≠ "...") ∧
        ∀ i ∈ s.inCycles, validCycle (cycles.getD i []) = true := by
  constructor
  · by_cases hc : cycles = []
    · subst hc; simp [generateCycleBreakSuggestions]
    · simp [generateCycleBreakSuggestions, hc]
  · intro s hs
    obtain ⟨r, hrmem, hmk⟩ := mem_suggestions hs
    subst hmk
    have hvals : ∀ entry ∈ buildEdgeFreq cycles, entry.2 ≠ [] :=
      buildAux_values_ne_nil 0 cycles [] (by intro e h; cases h)
    obtain ⟨i, hi⟩ := List.exists_mem_of_ne_nil _ (hvals r hrmem)
    obtain ⟨hlt, hvalid, hedge⟩ := buildEdgeFreq_entry_sound hrmem hi
    have hgetD : cycles.getD i [] = cycles[i] := List.getD_eq_getElem cycles [] hlt
    have hcmem : cycles.getD i [] ∈ cycles := by
      rw [hgetD]; exact List.getElem_mem hlt
    have hok : ∀ x ∈ cycles.getD i [], x ≠ "CYCLE_DETECTION_TIMEOUT" ∧ x ≠ "..." := by
      rcases H _ hcmem with hsent | hok
      · obtain ⟨x', y', rest', hshape, hx1, hx2⟩ := validCycle_shape hvalid
        rw [hshape] at hsent
        simp only [List.head?_cons, Option.some_inj] at hsent
        rcases hsent with h | h
        · exact (hx1 h).elim
        · exact (hx2 h).elim
      · exact hok
    have hends := mem_of_mem_cycleEdges hedge
    refine ⟨?_, ?_⟩
    · have h1 := hok _ hends.1
      have h2 := hok _ hends.2
      exact ⟨h1.1, h1.2, h2.1, h2.2⟩
    · intro j hj
      exact (buildEdgeFreq_entry_sound hrmem hj).2.1

/-- Cycle list with sentinel entries used to instantiate the C10 theorem. -/
def c10Cycles : List (List String) :=
  [["CYCLE_DETECTION_TIMEOUT"], ["..."], ["a", "b"]]

theorem c10_sentinel_cycles_excluded_witness :
    (∀ c ∈ c10Cycles,
      (c.head? = some "CYCLE_DETECTION_TIMEOUT" ∨ c.head? = some "...") ∨
        ∀ x ∈ c, x ≠ "CYCLE_DETECTION_TIMEOUT" ∧ x ≠ "...") ∧
      ((generateCycleBreakSuggestions (fun _ => 0) c10Cycles 5).cycleCount =
          c10Cycles.length ∧
        ∀ s ∈ (generateCycleBreakSuggestions (fun _ => 0) c10Cycles 5).suggestions,
          (s.edgeFrom ≠ "CYCLE_DETECTION_TIMEOUT" ∧ s.edgeFrom ≠ "..." ∧
            s.edgeTo ≠ "CYCLE_DETECTION_TIMEOUT" ∧ s.edgeTo ≠ "...") ∧
          ∀ i ∈ s.inCycles, validCycle (c10Cycles.getD i []) = true) :=
  ⟨by decide, c10_sentinel_cycles_excluded (fun _ => 0) c10Cycles 5 (by decide)⟩

/-- C2: over simple cycles, cycle-break generation ranks the distinct edges
by appearance count descending with ties by source then target ascending,
emits the first `limit` of them, and each suggestion carries impact = number
of (valid) cycles containing the edge, collateral = dependents of the
target, in_cycles = the indices of the cycles containing the edge, and the
fixed rationale; every counted edge not suggested ranks at or below every
suggested one. -/
theorem c2_cycle_break_generation (countDep : String → Nat)
    (cycles : List (List String)) (limit : Nat)
    (H : ∀ c ∈ cycles, c.Nodup) :
    (generateCycleBreakSuggestions countDep cycles limit).suggestions.length =
        min limit (buildEdgeFreq cycles).length ∧
      (generateCycleBreakSuggestions countDep cycles limit).suggestions.Pairwise
        suggRankedBefore ∧
      (∀ s ∈ (generateCycleBreakSuggestions countDep cycles limit).suggestions,
        s.impact = (cyclesWithEdge (s.edgeFrom, s.edgeTo) cycles).length ∧
        s.inCycles = cyclesWithEdge (s.edgeFrom, s.edgeTo) cycles ∧
        s.collateral = countDep s.edgeTo ∧
        s.rationale =
          "Appears in most cycles; removing minimizes structural damage.") ∧
      (∀ entry ∈ buildEdgeFreq cycles,
        entry.1 ∉ (generateCycleBreakSuggestions countDep cycles limit).suggestions.map
            (fun s => (s.edgeFrom, s.edgeTo)) →
        ∀ s ∈ (generateCycleBreakSuggestions countDep cycles limit).suggestions,
          suggRankedBefore s (mkSuggestion countDep entry)) := by
  have H' : ∀ c ∈ cycles, validCycle c = true → (cycleEdges c).Nodup :=
    fun c hc _ => cycleEdges_nodup (H c hc)
  have hlen : (rankedEdges cycles).length = (buildEdgeFreq cycles).length :=
    (List.perm_insertionSort edgeEntryLE (buildEdgeFreq cycles)).length_eq
  have hsorted : List.Pairwise edgeEntryLE (rankedEdges cycles) :=
    List.sorted_insertionSort edgeEntryLE (buildEdgeFreq cycles)
  refine ⟨?_, ?_, ?_, ?_⟩
  · by_cases hc : cycles = []
    · subst hc
      simp [generateCycleBreakSuggestions, buildEdgeFreq, buildAux]
    · simp [suggestions_eq_of_ne_nil hc, List.length_take, hlen]
  · by_cases hc : cycles = []
    · simp [generateCycleBreakSuggestions, hc]
    · rw [suggestions_eq_of_ne_nil hc]
      rw [List.pairwise_map]
      have htake : List.Pairwise edgeEntryLE ((rankedEdges cycles).take limit) :=
        List.Pairwise.sublist (List.take_sublist limit (rankedEdges cycles)) hsorted
      exact htake.imp (fun h => edgeEntryLE_mkSuggestion h)
  · intro s hs
    obtain ⟨r, hrmem, hmk⟩ := mem_suggestions hs
    subst hmk
    have heq := (buildEdgeFreq_entry_eq H' hrmem).1
    have hpair :
        ((mkSuggestion countDep r).edgeFrom, (mkSuggestion countDep r).edgeTo) = r.1 := by
      simp [mkSuggestion]
    rw [hpair]
    exact ⟨by rw [show (mkSuggestion countDep r).impact = r.2.length from rfl, heq],
      by rw [show (mkSuggestion countDep r).inCycles = r.2 from rfl, heq], rfl, rfl⟩
  · intro entry hentry hnotmem s hs
    by_cases hc : cycles = []
    · simp [generateCycleBreakSuggestions, hc] at hs
    · rw [suggestions_eq_of_ne_nil hc] at hs hnotmem
      obtain ⟨a, ha, hmk⟩ := List.mem_map.mp hs
      subst hmk
      have hentryr : entry ∈ rankedEdges cycles :=
        (List.perm_insertionSort edgeEntryLE (buildEdgeFreq cycles)).symm.subset hentry
      have hsplit := List.take_append_drop limit (rankedEdges cycles)
      have hentry2 : entry ∈ (rankedEdges cycles).take limit ++
          (rankedEdges cycles).drop limit := by rw [hsplit]; exact hentryr
      rcases List.mem_append.mp hentry2 with htake | hdrop
      · exfalso
        apply hnotmem
        rw [List.map_map]
        refine List.mem_map.mpr ⟨entry, htake, ?_⟩
        simp [mkSuggestion]
      · have hsorted2 : List.Pairwise edgeEntryLE
            ((rankedEdges cycles).take limit ++ (rankedEdges cycles).drop limit) := by
          rw [hsplit]; exact hsorted
        have hle := (List.pairwise_append.mp hsorted2).2.2 a ha entry hdrop
        exact edgeEntryLE_mkSuggestion hle

/-- Simple two-cycle pair used to instantiate the C2 theorem. -/
def c2Cycles : List (List String) := [["a", "b"], ["b", "a"]]

theorem c2_cycle_break_generation_witness :
    (∀ c ∈ c2Cycles, c.Nodup) ∧
      ((generateCycleBreakSuggestions (fun _ => 1) c2Cycles 5).suggestions.length =
          min 5 (buildEdgeFreq c2Cycles).length ∧
        (generateCycleBreakSuggestions (fun _ => 1) c2Cycles 5).suggestions.Pairwise
          suggRankedBefore ∧
        (∀ s ∈ (generateCycleBreakSuggestions (fun _ => 1) c2Cycles 5).suggestions,
          s.impact = (cyclesWithEdge (s.edgeFrom, s.edgeTo) c2Cycles).length ∧
          s.inCycles = cyclesWithEdge (s.edgeFrom, s.edgeTo) c2Cycles ∧
          s.collateral = (fun _ => 1) s.edgeTo ∧
          s.rationale =
            "Appears in most cycles; removing minimizes structural damage.") ∧
        (∀ entry ∈ buildEdgeFreq c2Cycles,
          entry.1 ∉ (generateCycleBreakSuggestions (fun _ => 1) c2Cycles 5).suggestions.map
              (fun s => (s.edgeFrom, s.edgeTo)) →
          ∀ s ∈ (generateCycleBreakSuggestions (fun _ => 1) c2Cycles 5).suggestions,
            suggRankedBefore s (mkSuggestion (fun _ => 1) entry))) :=
  ⟨by decide, c2_cycle_break_generation (fun _ => 1) c2Cycles 5 (by decide)⟩

/-! ## Reachability lemmas for the what-if delta -/

theorem subset_expandBack (edges : List (String × String)) (s : List String) :
    s ⊆ expandBack edges s :=
  fun _ ha => List.mem_append.mpr (Or.inl ha)

theorem subset_reachBack (edges : List (String × String)) :
    ∀ (n : Nat) (s : List String), s ⊆ reachBack edges n s := by
  intro n
  induction n with
  | zero => intro s a ha; exact ha
  | succ n ih =>
      intro s a ha
      exact ih (expandBack edges s) (subset_expandBack edges s ha)

theorem source_mem_expandBack {edges : List (String × String)} {s : List String}
    {u t : String} (he : (u, t) ∈ edges) (ht : t ∈ s) :
    u ∈ expandBack edges s := by
  by_cases hu : u ∈ s
  · exact subset_expandBack edges s hu
  · refine List.mem_append.mpr (Or.inr ?_)
    exact List.mem_map.mpr
      ⟨(u, t), List.mem_filter.mpr ⟨he, by simp [ht, hu]⟩, rfl⟩

theorem source_mem_reachBack {edges : List (String × String)} {u t : String}
    (he : (u, t) ∈ edges) :
    ∀ {n : Nat} {s : List String}, 0 < n → t ∈ s → u ∈ reachBack edges n s := by
  intro n s hn ht
  cases n with
  | zero => omega
  | succ n =>
      show u ∈ reachBack edges n (expandBack edges s)
      exact subset_reachBack edges n _ (source_mem_expandBack he ht)

theorem length_filter_mono_of_mem {α : Type} {l : List α} {p q : α → Bool}
    (h : ∀ a ∈ l, p a = true → q a = true) :
    (l.filter p).length ≤ (l.filter q).length := by
  induction l with
  | nil => simp
  | cons hd tl ih =>
      have ht : ∀ a ∈ tl, p a = true → q a = true :=
        fun a ha => h a (List.mem_cons_of_mem hd ha)
      by_cases hp : p hd = true
      · rw [List.filter_cons_of_pos hp, List.filter_cons_of_pos (h hd (List.mem_cons_self hd tl) hp)]
        simpa using ih ht
      · rw [List.filter_cons_of_neg (by simpa using hp)]
        by_cases hq : q hd = true
        · rw [List.filter_cons_of_pos hq]
          exact le_trans (ih ht) (by simp)
        · rw [List.filter_cons_of_neg (by simpa using hq)]
          exact ih ht

/-- C1 (amended): for every issue set, issue X and cap, the what-if delta
satisfies DirectUnblocks ≤ TransitiveUnblocks and
len(UnblockedIssueIDs) ≤ min(cap, TransitiveUnblocks), and the capped status
flag is set if and only if DirectUnblocks (not TransitiveUnblocks, as the
original claim stated) exceeds the length of UnblockedIssueIDs. -/
theorem c1_whatif_delta_consistency_amended (issues : List Issue) (x : String)
    (cap : Nat) :
    (computeWhatIfDelta issues x cap).directUnblocks ≤
        (computeWhatIfDelta issues x cap).transitiveUnblocks ∧
      (computeWhatIfDelta issues x cap).unblockedIssueIDs.length ≤
        min cap (computeWhatIfDelta issues x cap).transitiveUnblocks ∧
      (whatIfStatusCapped (computeWhatIfDelta issues x cap) = true ↔
        (computeWhatIfDelta issues x cap).unblockedIssueIDs.length <
          (computeWhatIfDelta issues x cap).directUnblocks) := by
  refine ⟨?_, ?_, ?_⟩
  · show (issues.filter _).length ≤ (issues.filter _).length
    apply length_filter_mono_of_mem
    intro a ha hp
    rw [decide_eq_true_eq] at hp ⊢
    obtain ⟨hopen, hne, hdep⟩ := hp
    refine ⟨hopen, hne, ?_⟩
    have hedge : (a.id, x) ∈ blockingEdges issues :=
      List.mem_flatMap.mpr ⟨a, ha, List.mem_map.mpr ⟨x, hdep, rfl⟩⟩
    have hpos : 0 < issues.length := List.length_pos_of_mem ha
    exact source_mem_reachBack hedge hpos (List.mem_singleton.mpr rfl)
  · show (List.take cap _).length ≤ min cap (issues.filter _).length
    rw [List.length_take, List.length_map]
  · show decide _ = true ↔ _
    rw [decide_eq_true_eq]

/-- Issue id used by the C1 chain: n0, n1, ... -/
def c1IdOf (n : Nat) : String := "n" ++ toString n

/-- A blocking chain of 22 open issues: n1 blocks on n0, n2 on n1, and so
on.  Completing n0 directly unblocks 1 issue and transitively unblocks 21,
exceeding the default id cap of 20. -/
def c1Chain : List Issue :=
  { id := c1IdOf 0, status := Status.open } ::
    (List.range 21).map (fun i =>
      { id := c1IdOf (i + 1), status := Status.open,
        dependencies := [⟨c1IdOf i, DepKind.blocks⟩] })

/-- C1 counterexample: on the 22-issue chain with the default cap of 20, the
delta for n0 has TransitiveUnblocks = 21 > 20 = len(UnblockedIssueIDs), yet
the capped flag computed by the code (from DirectUnblocks = 1) is false, so
capped ⇔ TransitiveUnblocks > len(UnblockedIssueIDs) fails. -/
theorem c1_whatif_delta_consistency_counterexample :
    ¬((whatIfStatusCapped (computeWhatIfDelta c1Chain (c1IdOf 0) 20) = true) ↔
        (computeWhatIfDelta c1Chain (c1IdOf 0) 20).unblockedIssueIDs.length <
          (computeWhatIfDelta c1Chain (c1IdOf 0) 20).transitiveUnblocks) := by
  decide

/-! ## Lemmas for GenerateTopReasons -/

theorem selectReasons_length (l : List ScoreFactor) :
    ∀ c, (selectReasons l c).length ≤ 3 - c := by
  induction l with
  | nil => intro c; simp [selectReasons]
  | cons f rest ih =>
      intro c
      rw [selectReasons]
      by_cases hw : f.weight < 1/100
      · rw [if_pos hw]; exact ih c
      · rw [if_neg hw]
        by_cases hc : 3 ≤ c
        · rw [if_pos hc]; simp
        · rw [if_neg hc]
          have := ih (c + 1)
          simp only [List.length_cons]
          omega

theorem selectReasons_structure (l : List ScoreFactor) :
    ∀ c, ∃ sub : List ScoreFactor, sub.Sublist l ∧
      selectReasons l c = sub.map mkReason ∧
      ∀ f ∈ sub, ¬(f.weight < 1/100) := by
  induction l with
  | nil => intro c; exact ⟨[], by simp, rfl, by simp⟩
  | cons f rest ih =>
      intro c
      by_cases hw : f.weight < 1/100
      · obtain ⟨sub, hs, he, hwt⟩ := ih c
        refine ⟨sub, hs.cons f, ?_, hwt⟩
        rw [selectReasons, if_pos hw]
        exact he
      · by_cases hc : 3 ≤ c
        · refine ⟨[], by simp, ?_, by simp⟩
          rw [selectReasons, if_neg hw, if_pos hc]
          rfl
        · obtain ⟨sub, hs, he, hwt⟩ := ih (c + 1)
          refine ⟨f :: sub, hs.cons₂ f, ?_, ?_⟩
          · rw [selectReasons, if_neg hw, if_neg hc, he]
            rfl
          · intro g hg
            rcases List.mem_cons.mp hg with h | h
            · exact h ▸ hw
            · exact hwt g h

/-- C9: GenerateTopReasons returns at most 3 reasons, each of weight at
least 0.01, listed in non-increasing weight order, and each explanation is
that of its factor, prefixed Very high / High / Moderate exactly according
to whether the factor normalized value exceeds 0.7, 0.4 or 0.2. -/
theorem c9_generate_top_reasons (score : ImpactScore) :
    (GenerateTopReasons score).length ≤ 3 ∧
      (∀ r ∈ GenerateTopReasons score, 1/100 ≤ r.weight) ∧
      (GenerateTopReasons score).Pairwise (fun a b => b.weight ≤ a.weight) ∧
      (∀ r ∈ GenerateTopReasons score, ∃ f ∈ factorsOf score,
        r.factor = f.name ∧ r.weight = f.weight ∧ r.emoji = f.emoji ∧
        ((7/10 < f.norm ∧ r.explanation = "Very high: " ++ f.explanation) ∨
          (f.norm ≤ 7/10 ∧ 4/10 < f.norm ∧
            r.explanation = "High: " ++ f.explanation) ∨
          (f.norm ≤ 4/10 ∧ 2/10 < f.norm ∧
            r.explanation = "Moderate: " ++ f.explanation) ∨
          (f.norm ≤ 2/10 ∧ r.explanation = f.explanation))) := by
  obtain ⟨sub, hsub, heq, hwt⟩ :=
    selectReasons_structure (List.insertionSort factorGE (factorsOf score)) 0
  have hsorted : List.Pairwise factorGE (List.insertionSort factorGE (factorsOf score)) :=
    List.sorted_insertionSort factorGE (factorsOf score)
  refine ⟨?_, ?_, ?_, ?_⟩
  · simpa using selectReasons_length (List.insertionSort factorGE (factorsOf score)) 0
  · intro r hr
    rw [show GenerateTopReasons score =
        selectReasons (List.insertionSort factorGE (factorsOf score)) 0 from rfl,
      heq] at hr
    obtain ⟨f, hf, hmk⟩ := List.mem_map.mp hr
    have := hwt f hf
    rw [← hmk]
    exact le_of_not_lt this
  · rw [show GenerateTopReasons score =
        selectReasons (List.insertionSort factorGE (factorsOf score)) 0 from rfl,
      heq, List.pairwise_map]
    exact (List.Pairwise.sublist hsub hsorted).imp (fun h => h)
  · intro r hr
    rw [show GenerateTopReasons score =
        selectReasons (List.insertionSort factorGE (factorsOf score)) 0 from rfl,
      heq] at hr
    obtain ⟨f, hf, hmk⟩ := List.mem_map.mp hr
    have hfmem : f ∈ factorsOf score :=
      (List.perm_insertionSort factorGE (factorsOf score)).subset (hsub.subset hf)
    refine ⟨f, hfmem, ?_⟩
    subst hmk
    refine ⟨rfl, rfl, rfl, ?_⟩
    have hexp : (mkReason f).explanation =
        (if 7/10 < f.norm then "Very high: " ++ f.explanation
          else if 4/10 < f.norm then "High: " ++ f.explanation
          else if 2/10 < f.norm then "Moderate: " ++ f.explanation
          else f.explanation) := rfl
    by_cases h1 : 7/10 < f.norm
    · refine Or.inl ⟨h1, ?_⟩
      rw [hexp, if_pos h1]
    · by_cases h2 : 4/10 < f.norm
      · refine Or.inr (Or.inl ⟨le_of_not_lt h1, h2, ?_⟩)
        rw [hexp, if_neg h1, if_pos h2]
      · by_cases h3 : 2/10 < f.norm
        · refine Or.inr (Or.inr (Or.inl ⟨le_of_not_lt h2, h3, ?_⟩))
          rw [hexp, if_neg h1, if_neg h2, if_pos h3]
        · refine Or.inr (Or.inr (Or.inr ⟨le_of_not_lt h3, ?_⟩))
          rw [hexp, if_neg h1, if_neg h2, if_neg h3]

/-! ## C4: enhanced recommendation ordering -/

/-- The ordering the original claim asserts for recommendations: impact
score descending, ties broken by priority ascending, then updatedAt
descending, then issue id ascending. -/
def claimedRecBefore (a b : EnhancedPriorityRecommendation) : Prop :=
  b.impactScore < a.impactScore ∨
    (a.impactScore = b.impactScore ∧
      (a.priority < b.priority ∨
        (a.priority = b.priority ∧
          (b.updatedAt < a.updatedAt ∨
            (a.updatedAt = b.updatedAt ∧ a.issueID.data ≤ b.issueID.data)))))

instance : DecidableRel claimedRecBefore := fun a b => by
  unfold claimedRecBefore
  exact inferInstance

/-- Equal-score pair: higher priority value listed first in input order. -/
def c4RecB : EnhancedPriorityRecommendation :=
  { issueID := "b", priority := 3, impactScore := 0 }

/-- Equal-score pair: lower priority value listed second in input order. -/
def c4RecA : EnhancedPriorityRecommendation :=
  { issueID := "a", priority := 1, impactScore := 0 }

/-- C4 counterexample: with two equal-score recommendations the final sort
compares only impact scores, so the priority-3 entry stays before the
priority-1 entry and the claimed (priority asc, updatedAt desc, id asc)
tie-break ordering is violated. -/
theorem c4_top_recommendations_counterexample :
    sortAndCapEnhanced [c4RecB, c4RecA] = [c4RecB, c4RecA] ∧
      ¬ List.Pairwise claimedRecBefore (sortAndCapEnhanced [c4RecB, c4RecA]) := by
  constructor
  · decide
  · decide

/-- C4 (amended): the returned recommendation list is ordered by impact
score descending only (equal scores keep their pre-sort order), contains at
most 10 entries, and is a top selection: every entry left out scores no
higher than any entry returned. -/
theorem c4_top_recommendations_amended (l : List EnhancedPriorityRecommendation) :
    (sortAndCapEnhanced l).Pairwise enhScoreGE ∧
      (sortAndCapEnhanced l).length ≤ 10 ∧
      ∃ rest : List EnhancedPriorityRecommendation,
        (sortAndCapEnhanced l ++ rest).Perm l ∧
        ∀ a ∈ sortAndCapEnhanced l, ∀ b ∈ rest, b.impactScore ≤ a.impactScore := by
  have hsorted : List.Pairwise enhScoreGE (List.insertionSort enhScoreGE l) :=
    List.sorted_insertionSort enhScoreGE l
  have hsplit := List.take_append_drop 10 (List.insertionSort enhScoreGE l)
  refine ⟨?_, ?_, ?_⟩
  · exact List.Pairwise.sublist (List.take_sublist _ _) hsorted
  · rw [show sortAndCapEnhanced l = (List.insertionSort enhScoreGE l).take 10 from rfl,
      List.length_take]
    exact min_le_left _ _
  · refine ⟨(List.insertionSort enhScoreGE l).drop 10, ?_, ?_⟩
    · rw [show sortAndCapEnhanced l = (List.insertionSort enhScoreGE l).take 10 from rfl,
        hsplit]
      exact List.perm_insertionSort enhScoreGE l
    · intro a ha b hb
      have hs2 : List.Pairwise enhScoreGE
          ((List.insertionSort enhScoreGE l).take 10 ++
            (List.insertionSort enhScoreGE l).drop 10) := by
        rw [hsplit]; exact hsorted
      exact (List.pairwise_append.mp hs2).2.2 a ha b hb

/-! ## C8: TopWhatIfDeltas -/

/-- The claimed ordering of TopWhatIfDeltas entries: transitive unblocks
descending, then direct unblocks descending, then issue id ascending. -/
def whatIfRankedBefore (a b : WhatIfEntry) : Prop :=
  b.delta.transitiveUnblocks < a.delta.transitiveUnblocks ∨
    (a.delta.transitiveUnblocks = b.delta.transitiveUnblocks ∧
      (b.delta.directUnblocks < a.delta.directUnblocks ∨
        (a.delta.directUnblocks = b.delta.directUnblocks ∧
          a.issueID.data ≤ b.issueID.data)))

theorem whatIfEntryLE_ranked {a b : WhatIfEntry} (h : whatIfEntryLE a b) :
    whatIfRankedBefore a b := by
  unfold whatIfEntryLE whatIfEntryKey at h
  rw [Prod.Lex.le_iff] at h
  rcases h with h | ⟨h1, h2⟩
  · left
    have : (b.delta.transitiveUnblocks : Int) < a.delta.transitiveUnblocks :=
      neg_lt_neg_iff.mp h
    exact_mod_cast this
  · have ht : a.delta.transitiveUnblocks = b.delta.transitiveUnblocks := by
      have := neg_inj.mp h1
      exact_mod_cast this
    rw [Prod.Lex.le_iff] at h2
    rcases h2 with h2 | ⟨h2a, h2b⟩
    · refine Or.inr ⟨ht, Or.inl ?_⟩
      have : (b.delta.directUnblocks : Int) < a.delta.directUnblocks :=
        neg_lt_neg_iff.mp h2
      exact_mod_cast this
    · refine Or.inr ⟨ht, Or.inr ⟨?_, h2b⟩⟩
      have := neg_inj.mp h2a
      exact_mod_cast this

/-- C8: TopWhatIfDeltas returns only entries of non-closed issues whose
delta exists and has positive direct or transitive unblocks, sorted by
transitive unblocks descending then direct unblocks descending then issue id
ascending, with at most n entries, n defaulting to 10 when not positive. -/
theorem c8_top_whatif_deltas (issues : List Issue)
    (delta : String → Option WhatIfDelta) (n : Int) :
    (∀ e ∈ TopWhatIfDeltas issues delta n, ∃ iss ∈ issues,
        iss.id = e.issueID ∧ iss.title = e.title ∧ iss.status ≠ Status.closed ∧
        delta iss.id = some e.delta ∧
        (0 < e.delta.directUnblocks ∨ 0 < e.delta.transitiveUnblocks)) ∧
      (TopWhatIfDeltas issues delta n).Pairwise whatIfRankedBefore ∧
      (TopWhatIfDeltas issues delta n).length ≤
        (if n ≤ 0 then (10 : Int) else n).toNat := by
  refine ⟨?_, ?_, ?_⟩
  · intro e he
    have he1 := List.take_subset _ _ he
    have he2 :=
      (List.perm_insertionSort whatIfEntryLE
        (issues.filterMap (whatIfCandidate delta))).subset he1
    obtain ⟨iss, hiss, hf⟩ := List.mem_filterMap.mp he2
    refine ⟨iss, hiss, ?_⟩
    rw [whatIfCandidate] at hf
    by_cases hst : iss.status = Status.closed
    · rw [if_pos hst] at hf; cases hf
    · rw [if_neg hst] at hf
      split at hf
      next => cases hf
      next d hd =>
        split at hf
        next hpos =>
          have hrec := Option.some_inj.mp hf
          subst hrec
          exact ⟨rfl, rfl, hst, hd, hpos⟩
        next => cases hf
  · have hsorted : List.Pairwise whatIfEntryLE
        (List.insertionSort whatIfEntryLE (issues.filterMap (whatIfCandidate delta))) :=
      List.sorted_insertionSort whatIfEntryLE _
    exact (List.Pairwise.sublist (List.take_sublist _ _) hsorted).imp
      (fun h => whatIfEntryLE_ranked h)
  · rw [show TopWhatIfDeltas issues delta n =
      (List.insertionSort whatIfEntryLE
        (issues.filterMap (whatIfCandidate delta))).take
        (if n ≤ 0 then (10 : Int) else n).toNat from rfl, List.length_take]
    exact min_le_left _ _

/-! ## C5: empty-input triage -/

/-- C5: on empty input the (spec-modelled) triage computation returns all
lists empty, all counts zero, has_cycles false, and command strings with
fallback text, never interpolating an empty issue id. -/
theorem c5_triage_empty_input :
    (ComputeTriage []).recommendations = [] ∧
      (ComputeTriage []).quickWins = [] ∧
      (ComputeTriage []).blockersToClear = [] ∧
      (ComputeTriage []).topPicks = [] ∧
      (ComputeTriage []).counts.total = 0 ∧
      (ComputeTriage []).counts.openCount = 0 ∧
      (ComputeTriage []).counts.inProgressCount = 0 ∧
      (ComputeTriage []).counts.blockedCount = 0 ∧
      (ComputeTriage []).counts.closedCount = 0 ∧
      (ComputeTriage []).counts.actionableCount = 0 ∧
      (ComputeTriage []).hasCycles = false ∧
      (ComputeTriage []).cycleCount = 0 ∧
      (ComputeTriage []).commands.listReady = "bd ready" ∧
      (ComputeTriage []).commands.claimTop ≠ "" ∧
      (ComputeTriage []).commands.claimTop ≠ "bd update  --status=in_progress" := by
  decide

/-! ## C6: racing lock takeover -/

/-- Liveness oracle of the C6 run: processes 1 and 2 are alive; the recorded
holder 0 is dead. -/
def c6Alive : Nat → Bool := fun q => decide (q = 1) || decide (q = 2)

/-- Initial state: the lock file records the dead pid 0; both processes are
about to run checkStale. -/
def c6Init : LockWorld :=
  { file := some 0, proc1 := { pid := 1 }, proc2 := { pid := 2 } }

/-- The interleaving: both processes pass the staleness re-read, then
process 1 completes write-temp, rename and verify, then process 2 does. -/
def c6Sched : List Bool := [true, false, true, true, true, false, false, false]

/-- C6 (code bug): under this interleaving both racing processes end with
isFirst = true -- both claim the lock -- although the lock file records only
pid 2.  The verification re-read after the atomic rename does not make stale
takeover mutually exclusive, contrary to the claim and the comments in
checkStale (pkg/instance/lock.go). -/
theorem c6_lock_double_claim :
    (runSched c6Alive c6Init c6Sched).proc1.isFirst = true ∧
      (runSched c6Alive c6Init c6Sched).proc2.isFirst = true ∧
      (runSched c6Alive c6Init c6Sched).file = some 2 := by
  decide
